import Mathlib

/-!
Verification of the NTU-Scripts repository against its specification.

Part 1 models the Document Chunker's chunking engine. The repository ships
only the chunker's README (usage documentation); the Python engine itself
(document_chunker.py) is not included, so the engine is modelled from the
specification: the Chunk Planner as a pure function, and the Worker Pool /
Run Coordinator as a small operational semantics (a step function over an
engine state, driven by an arbitrary schedule of events, which captures the
nondeterminism of concurrent execution).

Part 2 models the Fast Screenshot extension's service worker, whose
JavaScript source is included in the repository: getDomain, getTimestamp,
isRestrictedUrl and captureScreenshot, with the browser API calls
(tabs.query, captureVisibleTab, URL parsing, downloads.download, the clock)
abstracted as inputs, and the effects the code performs recorded in the
returned trace.
-/

namespace Chunker

/-- Modelled from the spec: a chunk descriptor `{ chunkIndex, startUnit, endUnit }`,
half-open on units (pages or paragraphs). -/
structure UnitRange where
  chunkIndex : Nat
  startUnit : Nat
  endUnit : Nat
deriving DecidableEq

/-- Modelled from the spec: `ceil(totalUnits / chunkSize)`, the number of chunks
the planner produces. -/
def numChunks (totalUnits chunkSize : Nat) : Nat :=
  (totalUnits + chunkSize - 1) / chunkSize

/-- Modelled from the spec: the Chunk Planner, a pure function
`plan(totalUnits, chunkSize) -> ordered sequence of UnitRange`; chunk `i`
covers units `[i*chunkSize, min ((i+1)*chunkSize) totalUnits)`. The Python
source (document_chunker.py) is not in the repository. -/
def plan (totalUnits chunkSize : Nat) : List UnitRange :=
  (List.range (numChunks totalUnits chunkSize)).map fun i =>
    { chunkIndex := i
      startUnit := i * chunkSize
      endUnit := min ((i + 1) * chunkSize) totalUnits }

/-- Modelled from the spec: the per-chunk outcome of extraction plus write,
abstracting the Document Accessor and the file system. -/
inductive ChunkOutcome where
  | ok
  | rangeUnreadable
  | writeError
deriving DecidableEq

/-- Modelled from the spec: per-chunk status `Success | Failed(reason)`. -/
inductive ChunkStatus where
  | success
  | failed (reason : String)
deriving DecidableEq

/-- Modelled from the spec: the status a worker records for a chunk outcome. -/
def statusOf : ChunkOutcome → ChunkStatus
  | ChunkOutcome.ok => ChunkStatus.success
  | ChunkOutcome.rangeUnreadable => ChunkStatus.failed ("RangeUnreadable")
  | ChunkOutcome.writeError => ChunkStatus.failed ("ChunkWriteError")

/-- Modelled from the spec: `ChunkResult { chunkIndex, unitCount, status }`
(the timing and byte-size fields are real-time and file-system quantities,
not modelled). -/
structure ChunkResult where
  chunkIndex : Nat
  unitCount : Nat
  status : ChunkStatus
deriving DecidableEq

/-- Modelled from the spec: the result a worker emits after fully processing
one range. -/
def mkResult (r : UnitRange) (o : ChunkOutcome) : ChunkResult :=
  { chunkIndex := r.chunkIndex
    unitCount := r.endUnit - r.startUnit
    status := statusOf o }

/-- Modelled from the spec: the shared mutable state of the Worker Pool and
Run Coordinator: the atomic work-claim cursor, the set of ranges currently
in flight (identified by their position in the work list), the append-only
result accumulation, and the cancellation token. -/
structure EngineState where
  cursor : Nat
  inFlight : List Nat
  results : List ChunkResult
  cancelled : Bool
deriving DecidableEq

/-- Modelled from the spec: the state at run start. -/
def initState : EngineState :=
  { cursor := 0, inFlight := [], results := [], cancelled := false }

/-- Modelled from the spec: one scheduler event: a worker claims the next
unassigned range, a worker finishes the in-flight range `j` (extraction,
serialization and write run to completion), or cancellation is requested. -/
inductive Event where
  | claim
  | finish (j : Nat)
  | cancel
deriving DecidableEq

/-- Modelled from the spec: one atomic transition of the Worker Pool.
A claim is refused when the cancellation token is set (checked before a
worker claims new work), when `maxWorkers` executions are already in
flight, or when the work list is exhausted. A finish removes the range from
the in-flight set and appends exactly one ChunkResult; a per-chunk failure
is recorded in the result's status and does not affect any other range. -/
def step (ranges : List UnitRange) (maxWorkers : Nat) (outcome : Nat → ChunkOutcome)
    (s : EngineState) : Event → EngineState
  | Event.claim =>
    if s.cancelled = true then s
    else if s.inFlight.length < maxWorkers then
      match ranges.get? s.cursor with
      | some _ => { s with cursor := s.cursor + 1, inFlight := s.cursor :: s.inFlight }
      | none => s
    else s
  | Event.finish j =>
    if j ∈ s.inFlight then
      match ranges.get? j with
      | some r =>
        { s with inFlight := s.inFlight.erase j
                 results := s.results ++ [mkResult r (outcome r.chunkIndex)] }
      | none => s
    else s
  | Event.cancel => { s with cancelled := true }

/-- Modelled from the spec: a whole run of the Worker Pool under an arbitrary
schedule of events (the schedule captures worker interleaving). -/
def runPool (ranges : List UnitRange) (maxWorkers : Nat) (outcome : Nat → ChunkOutcome)
    (es : List Event) : EngineState :=
  es.foldl (step ranges maxWorkers outcome) initState

/-- Modelled from the spec: the pool has drained: every planned range was
claimed and every claimed range was finished. -/
def drained (ranges : List UnitRange) (s : EngineState) : Prop :=
  s.cursor = ranges.length ∧ s.inFlight = []

instance (ranges : List UnitRange) (s : EngineState) : Decidable (drained ranges s) :=
  inferInstanceAs (Decidable (s.cursor = ranges.length ∧ s.inFlight = []))

/-- Modelled from the spec: the final `RunReport`. -/
structure RunReport where
  totalChunksPlanned : Nat
  results : List ChunkResult
  cancelled : Bool
deriving DecidableEq

/-- Ordering of chunk results by ascending chunk index. -/
def byIndex (a b : ChunkResult) : Prop := a.chunkIndex ≤ b.chunkIndex

instance : DecidableRel byIndex :=
  fun a b => Nat.decLe a.chunkIndex b.chunkIndex

instance : IsTotal ChunkResult byIndex :=
  ⟨fun a b => Nat.le_total a.chunkIndex b.chunkIndex⟩

instance : IsTrans ChunkResult byIndex :=
  ⟨fun _ _ _ h1 h2 => Nat.le_trans h1 h2⟩

/-- Modelled from the spec: the Run Coordinator's final report: results are
re-sorted by chunkIndex ascending before the report is sealed, regardless of
arrival order. -/
def finalReport (planned : Nat) (s : EngineState) : RunReport :=
  { totalChunksPlanned := planned
    results := List.insertionSort byIndex s.results
    cancelled := s.cancelled }

/-- A work list whose range at position `j` carries chunk index `j`
(true of every planner output). -/
def goodRanges (ranges : List UnitRange) : Prop :=
  ∀ j r, ranges.get? j = some r → r.chunkIndex = j

/-- The pool invariant: the cursor never passes the work list; the recorded
results plus the in-flight ranges are, as a multiset of positions, exactly
the claimed prefix `[0, cursor)`; and every recorded result is the faithful
result of its range. -/
def PoolInv (ranges : List UnitRange) (outcome : Nat → ChunkOutcome)
    (s : EngineState) : Prop :=
  s.cursor ≤ ranges.length ∧
  ((s.results.map fun res => res.chunkIndex) ++ s.inFlight).Perm
    (List.range s.cursor) ∧
  (∀ res ∈ s.results, ∃ j r, ranges.get? j = some r ∧
    res = mkResult r (outcome r.chunkIndex))

/-- Modelled from the spec: a run bundling the planner's output with the
pool's final state, used to state planner determinism across runs. -/
structure EngineRun where
  plannedRanges : List UnitRange
  finalState : EngineState

/-- Modelled from the spec: one end-to-end engine run: plan once, then drive
the pool under some schedule, worker bound and per-chunk outcomes. -/
def engineRun (totalUnits chunkSize maxWorkers : Nat) (outcome : Nat → ChunkOutcome)
    (es : List Event) : EngineRun :=
  { plannedRanges := plan totalUnits chunkSize
    finalState := runPool (plan totalUnits chunkSize) maxWorkers outcome es }

/-- All-success outcome assignment, for witnesses. -/
def allOk : Nat → ChunkOutcome := fun _ => ChunkOutcome.ok

/-- Outcome assignment in which only chunk 1 fails extraction, for witnesses. -/
def failAt1 : Nat → ChunkOutcome :=
  fun j => if j = 1 then ChunkOutcome.rangeUnreadable else ChunkOutcome.ok

end Chunker

namespace Screenshot

/-- JS: `s.startsWith(pre)`, at the level of character sequences. -/
def jsStartsWith (s pre : String) : Bool :=
  pre.data.isPrefixOf s.data

/-- JS: `const RESTRICTED_URLS = ['chrome://', 'chrome-extension://',
'chrome-search://', 'edge://', 'about:', 'view-source:', 'file://']`. -/
def RESTRICTED_URLS : List String :=
  [("chrome://"), ("chrome-extension://"), ("chrome-search://"), ("edge://"),
   ("about:"), ("view-source:"), ("file://")]

/-- JS: `isRestrictedUrl(url)` returns
`RESTRICTED_URLS.some(pattern => url.startsWith(pattern))`. -/
def isRestrictedUrl (url : String) : Bool :=
  RESTRICTED_URLS.any fun pattern => jsStartsWith url pattern

/-- JS: `getDomain(url)` returns `new URL(url).hostname || 'unknown-domain'`
inside try/catch with catch returning `'unknown-domain'`. The WHATWG URL
parser is external to the repository; `parse` abstracts it: `some h` when
`new URL(url)` succeeds with hostname `h`, `none` when the constructor
throws. The empty hostname is falsy in JS, so `||` falls through to the
fallback string. -/
def getDomain (parse : String → Option String) (url : String) : String :=
  match parse url with
  | some hostname => if hostname = ("") then ("unknown-domain") else hostname
  | none => ("unknown-domain")

/-- JS: `getTimestamp()` returns
`new Date().toISOString().replace(/[:T]/g, '-').split('.')[0]`; `iso`
abstracts `new Date().toISOString()`. The regex replaces each ':' and 'T'
character by '-', and `.split('.')[0]` is the prefix before the first '.'. -/
def getTimestamp (iso : String) : String :=
  String.mk
    (((iso.data.map fun ch => if ch = ':' ∨ ch = 'T' then '-' else ch).takeWhile
      fun ch => ch ≠ '.'))

/-- JS: the template literal `screenshots/${domain}/${timestamp}.png`. -/
def screenshotFilename (domain timestamp : String) : String :=
  ("screenshots/") ++ domain ++ ("/") ++ timestamp ++ (".png")

/-- A browser tab as captureScreenshot reads it: `tab.id` and `tab.url`. -/
structure Tab where
  id : Nat
  url : String

/-- The browser environment captureScreenshot runs against: the active-tab
query result, the data URL captureVisibleTab would return, the URL parser,
the current clock's ISO string, and whether downloads.download would set
`chrome.runtime.lastError`. -/
structure Env where
  tabs : List Tab
  screenshot : String
  parse : String → Option String
  isoNow : String
  downloadError : Option String

/-- What one invocation of captureScreenshot did: its return value or thrown
error, whether chrome.tabs.captureVisibleTab was invoked, the filename passed
to chrome.downloads.download (none when download was never invoked), and the
messages sent through notifyUser. -/
structure CaptureTrace where
  result : Except String Bool
  captureCalled : Bool
  downloadFilename : Option String
  notifications : List String

/-- JS: `captureScreenshot()`. Queries the active tab; throws
'No active tab found' on an empty result; throws
'Cannot capture restricted page' (after notifying the tab) when
`isRestrictedUrl(tab.url)`; otherwise captures, throws
'Screenshot capture failed' when the data URL is falsy or shorter than 100
characters; otherwise builds `screenshots/<domain>/<timestamp>.png` and
passes it to saveFile, which rejects with the lastError message or resolves
after a success notification. The catch block logs and rethrows, leaving the
thrown error unchanged. -/
def captureScreenshot (env : Env) : CaptureTrace :=
  match env.tabs with
  | [] =>
    { result := Except.error ("No active tab found")
      captureCalled := false, downloadFilename := none, notifications := [] }
  | tab :: _ =>
    if isRestrictedUrl tab.url then
      { result := Except.error ("Cannot capture restricted page")
        captureCalled := false, downloadFilename := none
        notifications := [("Cannot capture restricted page")] }
    else if env.screenshot.length < 100 then
      { result := Except.error ("Screenshot capture failed")
        captureCalled := true, downloadFilename := none, notifications := [] }
    else
      let domain := getDomain env.parse tab.url
      let filename := screenshotFilename domain (getTimestamp env.isoNow)
      match env.downloadError with
      | some e =>
        { result := Except.error e
          captureCalled := true, downloadFilename := some filename
          notifications := [("Failed to save: ") ++ e] }
      | none =>
        { result := Except.ok true
          captureCalled := true, downloadFilename := some filename
          notifications := [("Screenshot saved")] }

/-- A concrete environment whose active tab is a restricted page,
for witnesses. -/
def restrictedEnv : Env :=
  { tabs := [{ id := 1, url := ("chrome://settings") }]
    screenshot := ("")
    parse := fun _ => none
    isoNow := ("")
    downloadError := none }

end Screenshot

namespace Chunker

lemma plan_length (t c : Nat) : (plan t c).length = numChunks t c := by
  simp [plan]

lemma plan_get? (t c i : Nat) :
    (plan t c).get? i =
      if i < numChunks t c then
        some { chunkIndex := i, startUnit := i * c, endUnit := min ((i + 1) * c) t }
      else none := by
  by_cases h : i < numChunks t c
  · rw [if_pos h, List.get?_eq_getElem?]
    simp [plan, List.getElem?_map, List.getElem?_range h]
  · rw [if_neg h]
    apply List.get?_eq_none.mpr
    rw [plan_length]
    omega

lemma plan_get?_some {t c i : Nat} {r : UnitRange}
    (h : (plan t c).get? i = some r) :
    i < numChunks t c ∧
      r = { chunkIndex := i, startUnit := i * c, endUnit := min ((i + 1) * c) t } := by
  rw [plan_get?] at h
  by_cases hi : i < numChunks t c
  · rw [if_pos hi] at h
    exact ⟨hi, (Option.some.injEq _ _ ▸ h).symm⟩
  · rw [if_neg hi] at h
    exact absurd h (Option.noConfusion)

lemma plan_mem {t c : Nat} {r : UnitRange} :
    r ∈ plan t c ↔ ∃ i, i < numChunks t c ∧
      r = { chunkIndex := i, startUnit := i * c, endUnit := min ((i + 1) * c) t } := by
  simp only [plan, List.mem_map, List.mem_range]
  constructor
  · rintro ⟨i, hi, rfl⟩
    exact ⟨i, hi, rfl⟩
  · rintro ⟨i, hi, rfl⟩
    exact ⟨i, hi, rfl⟩

lemma lt_numChunks_iff {t c : Nat} (hc : 1 ≤ c) (i : Nat) :
    i < numChunks t c ↔ i * c < t := by
  unfold numChunks
  rw [Nat.lt_iff_add_one_le, Nat.le_div_iff_mul_le hc]
  have h1 : (i + 1) * c = i * c + c := by ring
  rw [h1]
  omega

lemma t_le_numChunks_mul {t c : Nat} (hc : 1 ≤ c) : t ≤ numChunks t c * c := by
  by_contra h
  exact absurd ((lt_numChunks_iff hc (numChunks t c)).mpr (by omega)) (lt_irrefl _)

lemma numChunks_le_of_le {t c : Nat} (hc : 1 ≤ c) (m : Nat) (hm : t ≤ m * c) :
    numChunks t c ≤ m := by
  by_contra h
  have hlt : m < numChunks t c := by omega
  have := (lt_numChunks_iff hc m).mp hlt
  omega

lemma plan_partial_sum (c t : Nat) :
    ∀ n, (((List.range n).map fun i => min ((i + 1) * c) t - i * c)).sum
      = min (n * c) t
  | 0 => by simp
  | n + 1 => by
    rw [List.range_succ, List.map_append, List.sum_append, plan_partial_sum c t n]
    simp only [List.map_cons, List.map_nil, List.sum_cons, List.sum_nil]
    have hmono : n * c ≤ (n + 1) * c := Nat.mul_le_mul_right c (Nat.le_succ n)
    rcases Nat.le_total t (n * c) with h | h
    · rw [Nat.min_eq_right h, Nat.min_eq_right (le_trans h hmono)]
      omega
    · rw [Nat.min_eq_left h]
      have h1 : n * c ≤ min ((n + 1) * c) t := le_min hmono h
      have h2 : min ((n + 1) * c) t ≤ (n + 1) * c := min_le_left _ _
      omega

lemma plan_goodRanges (t c : Nat) : goodRanges (plan t c) := by
  intro j r h
  rw [(plan_get?_some h).2]

lemma inv_initState (ranges : List UnitRange) (outcome : Nat → ChunkOutcome) :
    PoolInv ranges outcome initState := by
  refine ⟨Nat.zero_le _, ?_, ?_⟩
  · simp [initState]
  · intro res hres
    simp [initState] at hres

lemma inv_step (ranges : List UnitRange) (w : Nat) (outcome : Nat → ChunkOutcome)
    (hg : goodRanges ranges) (s : EngineState) (e : Event)
    (h : PoolInv ranges outcome s) :
    PoolInv ranges outcome (step ranges w outcome s e) := by
  obtain ⟨hcur, hperm, hres⟩ := h
  cases e with
  | claim =>
    show PoolInv ranges outcome
      (if s.cancelled = true then s
       else if s.inFlight.length < w then
         match ranges.get? s.cursor with
         | some _ => { s with cursor := s.cursor + 1, inFlight := s.cursor :: s.inFlight }
         | none => s
       else s)
    by_cases hb : s.cancelled = true
    · rw [if_pos hb]
      exact ⟨hcur, hperm, hres⟩
    rw [if_neg hb]
    by_cases hl : s.inFlight.length < w
    · rw [if_pos hl]
      cases hget : ranges.get? s.cursor with
      | none => exact ⟨hcur, hperm, hres⟩
      | some r =>
        have hlt : s.cursor < ranges.length := List.get?_eq_some.mp hget |>.1
        refine ⟨hlt, ?_, hres⟩
        show ((s.results.map fun res => res.chunkIndex) ++ s.cursor :: s.inFlight).Perm
          (List.range (s.cursor + 1))
        have h2 : ((s.results.map fun res => res.chunkIndex) ++ s.cursor :: s.inFlight).Perm
            (s.cursor :: ((s.results.map fun res => res.chunkIndex) ++ s.inFlight)) :=
          List.perm_middle
        have h3 := h2.trans (hperm.cons s.cursor)
        rw [List.range_succ]
        exact h3.trans (List.perm_append_singleton _ _).symm
    · rw [if_neg hl]
      exact ⟨hcur, hperm, hres⟩
  | finish j =>
    show PoolInv ranges outcome
      (if j ∈ s.inFlight then
         match ranges.get? j with
         | some r =>
           { s with inFlight := s.inFlight.erase j
                    results := s.results ++ [mkResult r (outcome r.chunkIndex)] }
         | none => s
       else s)
    by_cases hmem : j ∈ s.inFlight
    · rw [if_pos hmem]
      cases hget : ranges.get? j with
      | none => exact ⟨hcur, hperm, hres⟩
      | some r =>
        have hidx : r.chunkIndex = j := hg j r hget
        refine ⟨hcur, ?_, ?_⟩
        · show (((s.results ++ [mkResult r (outcome r.chunkIndex)]).map
              fun res => res.chunkIndex) ++ s.inFlight.erase j).Perm
            (List.range s.cursor)
          rw [List.map_append]
          have hone : ([mkResult r (outcome r.chunkIndex)].map
              fun res => res.chunkIndex) = [j] := by
            simp [mkResult, hidx]
          rw [hone, List.append_assoc]
          have h1 : s.inFlight.Perm (j :: s.inFlight.erase j) :=
            List.perm_cons_erase hmem
          have h2 : ((s.results.map fun res => res.chunkIndex) ++
              (j :: s.inFlight.erase j)).Perm
              ((s.results.map fun res => res.chunkIndex) ++ s.inFlight) :=
            List.Perm.append_left _ h1.symm
          exact h2.trans hperm
        · intro res hmem2
          rw [List.mem_append] at hmem2
          rcases hmem2 with hmem2 | hmem2
          · exact hres res hmem2
          · rw [List.mem_singleton] at hmem2
            exact ⟨j, r, hget, hmem2⟩
    · rw [if_neg hmem]
      exact ⟨hcur, hperm, hres⟩
  | cancel => exact ⟨hcur, hperm, hres⟩

lemma inv_foldl (ranges : List UnitRange) (w : Nat) (outcome : Nat → ChunkOutcome)
    (hg : goodRanges ranges) :
    ∀ (es : List Event) (s : EngineState), PoolInv ranges outcome s →
      PoolInv ranges outcome (es.foldl (step ranges w outcome) s)
  | [], _, h => h
  | e :: es, s, h =>
    inv_foldl ranges w outcome hg es _ (inv_step ranges w outcome hg s e h)

lemma inv_runPool (ranges : List UnitRange) (w : Nat) (outcome : Nat → ChunkOutcome)
    (hg : goodRanges ranges) (es : List Event) :
    PoolInv ranges outcome (runPool ranges w outcome es) :=
  inv_foldl ranges w outcome hg es initState (inv_initState ranges outcome)

lemma step_cancelled (ranges : List UnitRange) (w : Nat) (outcome : Nat → ChunkOutcome)
    (s : EngineState) (e : Event) (h : s.cancelled = true) :
    (step ranges w outcome s e).cancelled = true := by
  cases e with
  | claim =>
    show (if s.cancelled = true then s else _).cancelled = true
    rw [if_pos h]
    exact h
  | finish j =>
    show (if j ∈ s.inFlight then
       match ranges.get? j with
       | some r =>
         { s with inFlight := s.inFlight.erase j
                  results := s.results ++ [mkResult r (outcome r.chunkIndex)] }
       | none => s
     else s).cancelled = true
    by_cases hmem : j ∈ s.inFlight
    · rw [if_pos hmem]
      cases ranges.get? j with
      | none => exact h
      | some r => exact h
    · rw [if_neg hmem]
      exact h
  | cancel => rfl

lemma foldl_cancelled_mono (ranges : List UnitRange) (w : Nat)
    (outcome : Nat → ChunkOutcome) :
    ∀ (es : List Event) (s : EngineState), s.cancelled = true →
      (es.foldl (step ranges w outcome) s).cancelled = true
  | [], _, h => h
  | e :: es, s, h =>
    foldl_cancelled_mono ranges w outcome es _ (step_cancelled ranges w outcome s e h)

lemma foldl_cancelled (ranges : List UnitRange) (w : Nat) (outcome : Nat → ChunkOutcome) :
    ∀ (es : List Event) (s : EngineState), Event.cancel ∈ es →
      (es.foldl (step ranges w outcome) s).cancelled = true := by
  intro es
  induction es with
  | nil => intro s h; simp at h
  | cons e es ih =>
    intro s h
    rcases List.mem_cons.mp h with h1 | h1
    · subst h1
      exact foldl_cancelled_mono ranges w outcome es _ rfl
    · exact ih _ h1

lemma report_results_perm (p : Nat) (s : EngineState) :
    ((finalReport p s).results).Perm s.results :=
  List.perm_insertionSort byIndex s.results

lemma report_sorted (p : Nat) (s : EngineState) :
    List.Sorted byIndex (finalReport p s).results :=
  List.sorted_insertionSort byIndex s.results

lemma drained_results_perm {ranges : List UnitRange} {outcome : Nat → ChunkOutcome}
    {s : EngineState} (hinv : PoolInv ranges outcome s) (hd : drained ranges s) :
    ((s.results.map fun res => res.chunkIndex)).Perm (List.range ranges.length) := by
  obtain ⟨-, hperm, -⟩ := hinv
  obtain ⟨hcur, hfl⟩ := hd
  rw [hfl, List.append_nil, hcur] at hperm
  exact hperm

lemma drained_result_for_index {ranges : List UnitRange} {outcome : Nat → ChunkOutcome}
    {s : EngineState} (hinv : PoolInv ranges outcome s) (hd : drained ranges s)
    {j : Nat} {r : UnitRange} (hget : ranges.get? j = some r)
    (hg : goodRanges ranges) :
    ∃ res ∈ s.results, res = mkResult r (outcome r.chunkIndex) := by
  have hperm := drained_results_perm hinv hd
  have hj : j < ranges.length := (List.get?_eq_some.mp hget).1
  have hmem : j ∈ s.results.map fun res => res.chunkIndex :=
    hperm.mem_iff.mpr (List.mem_range.mpr hj)
  obtain ⟨res, hres, hidx⟩ := List.mem_map.mp hmem
  obtain ⟨j', r', hget', heq⟩ := hinv.2.2 res hres
  have hj' : r'.chunkIndex = j' := hg j' r' hget'
  have : j' = j := by
    rw [heq] at hidx
    simpa [mkResult, hj'] using hidx
  subst this
  rw [hget'] at hget
  obtain rfl : r' = r := by injection hget
  exact ⟨res, hres, heq⟩

/-- Claim C1: for every totalUnits ≥ 0 and chunkSize ≥ 1 the Chunk Planner's
output is an ordered sequence of ranges that are contiguous (each range
starts where its predecessor ends), non-overlapping, whose union is exactly
the half-open interval [0, totalUnits), and whose lengths sum to totalUnits;
each range is nonempty and carries its position as chunk index. -/
theorem planner_partition (t c : Nat) (hc : 1 ≤ c) :
    (∀ i r r', (plan t c).get? i = some r → (plan t c).get? (i + 1) = some r' →
        r'.startUnit = r.endUnit) ∧
    (∀ i j r r', (plan t c).get? i = some r → (plan t c).get? j = some r' →
        i < j → r.endUnit ≤ r'.startUnit) ∧
    (∀ u, u < t ↔ ∃ r, r ∈ plan t c ∧ r.startUnit ≤ u ∧ u < r.endUnit) ∧
    (((plan t c).map fun r => r.endUnit - r.startUnit).sum = t) ∧
    (∀ i r, (plan t c).get? i = some r → r.startUnit < r.endUnit ∧ r.chunkIndex = i) := by
  have h0 : 0 < c := hc
  refine ⟨?_, ?_, ?_, ?_, ?_⟩
  · intro i r r' h1 h2
    obtain ⟨hi, rfl⟩ := plan_get?_some h1
    obtain ⟨hi', rfl⟩ := plan_get?_some h2
    have hlt : (i + 1) * c < t := (lt_numChunks_iff hc (i + 1)).mp hi'
    show (i + 1) * c = min ((i + 1) * c) t
    rw [Nat.min_eq_left (le_of_lt hlt)]
  · intro i j r r' h1 h2 hij
    obtain ⟨hi, rfl⟩ := plan_get?_some h1
    obtain ⟨hj, rfl⟩ := plan_get?_some h2
    show min ((i + 1) * c) t ≤ j * c
    exact le_trans (min_le_left _ _) (Nat.mul_le_mul_right c hij)
  · intro u
    constructor
    · intro hu
      refine ⟨{ chunkIndex := u / c, startUnit := u / c * c
                endUnit := min ((u / c + 1) * c) t }, ?_, ?_, ?_⟩
      · rw [plan_mem]
        refine ⟨u / c, ?_, rfl⟩
        have hle : u / c * c ≤ u := Nat.div_mul_le_self u c
        exact (lt_numChunks_iff hc (u / c)).mpr (lt_of_le_of_lt hle hu)
      · exact Nat.div_mul_le_self u c
      · have hdm : u % c + u / c * c = u := Nat.mod_add_div' u c
        have hmod : u % c < c := Nat.mod_lt _ h0
        have h1 : u < (u / c + 1) * c := by
          have h2 : (u / c + 1) * c = u / c * c + c := by ring
          omega
        exact lt_min h1 hu
    · rintro ⟨r, hmem, h1, h2⟩
      rw [plan_mem] at hmem
      obtain ⟨i, hi, rfl⟩ := hmem
      exact lt_of_lt_of_le h2 (min_le_right _ _)
  · have h2 : (((List.range (numChunks t c)).map
        fun i => min ((i + 1) * c) t - i * c)).sum = t := by
      rw [plan_partial_sum c t (numChunks t c),
        Nat.min_eq_right (t_le_numChunks_mul hc)]
    rw [plan, List.map_map]
    exact h2
  · intro i r h1
    obtain ⟨hi, rfl⟩ := plan_get?_some h1
    refine ⟨?_, rfl⟩
    show i * c < min ((i + 1) * c) t
    refine lt_min ?_ ((lt_numChunks_iff hc i).mp hi)
    have h2 : (i + 1) * c = i * c + c := by ring
    omega

/-- Witness for C1 at totalUnits = 7, chunkSize = 3: the range lengths sum
to 7. -/
theorem planner_partition_witness :
    1 ≤ 3 ∧ (((plan 7 3).map fun r => r.endUnit - r.startUnit).sum = 7) :=
  ⟨by decide, (planner_partition 7 3 (by decide)).2.2.2.1⟩

lemma last_len {t c n : Nat} (hc : 1 ≤ c) (hn : 1 ≤ n)
    (hlow : (n - 1) * c < t) (hhigh : t ≤ n * c) :
    t - (n - 1) * c = if t % c = 0 then c else t % c := by
  obtain ⟨m, rfl⟩ : ∃ m, n = m + 1 := ⟨n - 1, by omega⟩
  simp only [Nat.add_sub_cancel] at hlow ⊢
  have hdm : t % c + t / c * c = t := Nat.mod_add_div' t c
  have hs : t % c < c := Nat.mod_lt _ hc
  have hexp : (m + 1) * c = m * c + c := by ring
  by_cases hz : t % c = 0
  · rw [if_pos hz]
    have hq2 : t / c ≤ m + 1 := by
      by_contra h
      have h2 : (m + 2) * c ≤ t / c * c := Nat.mul_le_mul_right c (by omega)
      have h3 : (m + 2) * c = m * c + c + c := by ring
      omega
    have hq3 : m + 1 ≤ t / c := by
      by_contra h
      have h2 : t / c * c ≤ m * c := Nat.mul_le_mul_right c (by omega)
      omega
    have h4 : t / c * c = (m + 1) * c := by
      rw [show t / c = m + 1 by omega]
    omega
  · rw [if_neg hz]
    have hq3 : t / c ≤ m := by
      by_contra h
      have h2 : (m + 1) * c ≤ t / c * c := Nat.mul_le_mul_right c (by omega)
      omega
    have hq4 : m ≤ t / c := by
      by_contra h
      have h2 : (t / c + 1) * c ≤ m * c := Nat.mul_le_mul_right c (by omega)
      have h3 : (t / c + 1) * c = t / c * c + c := by ring
      omega
    have h4 : t / c * c = m * c := by
      rw [show t / c = m by omega]
    omega

/-- Claim C2: for every totalUnits ≥ 0 and chunkSize ≥ 1, the planner
produces exactly ceil(totalUnits / chunkSize) ranges — numChunks is the
least worker-file count covering totalUnits — the last range's length is
totalUnits mod chunkSize when that remainder is nonzero and chunkSize
otherwise, and a drained run records exactly that many results (on full
success all of them Success, one output file each). -/
theorem planner_chunk_count (t c : Nat) (hc : 1 ≤ c) :
    (plan t c).length = numChunks t c ∧
    t ≤ numChunks t c * c ∧
    (∀ m, t ≤ m * c → numChunks t c ≤ m) ∧
    (∀ r, (plan t c).getLast? = some r →
        r.endUnit - r.startUnit = if t % c = 0 then c else t % c) ∧
    (∀ w outcome es, drained (plan t c) (runPool (plan t c) w outcome es) →
        (finalReport (plan t c).length
            (runPool (plan t c) w outcome es)).results.length = numChunks t c ∧
        ((∀ j, outcome j = ChunkOutcome.ok) →
          ∀ res ∈ (finalReport (plan t c).length
              (runPool (plan t c) w outcome es)).results,
            res.status = ChunkStatus.success)) := by
  refine ⟨plan_length t c, t_le_numChunks_mul hc, numChunks_le_of_le hc, ?_, ?_⟩
  · intro r h
    rw [List.getLast?_eq_getElem?, ← List.get?_eq_getElem?] at h
    obtain ⟨hlt, rfl⟩ := plan_get?_some h
    rw [plan_length] at hlt ⊢
    have hn : 1 ≤ numChunks t c := by omega
    show min ((numChunks t c - 1 + 1) * c) t - (numChunks t c - 1) * c = _
    rw [Nat.sub_add_cancel hn, Nat.min_eq_right (t_le_numChunks_mul hc)]
    exact last_len hc hn ((lt_numChunks_iff hc _).mp (by omega))
      (t_le_numChunks_mul hc)
  · intro w outcome es hd
    have hg := plan_goodRanges t c
    have hinv := inv_runPool (plan t c) w outcome hg es
    constructor
    · have h1 := (report_results_perm (plan t c).length
        (runPool (plan t c) w outcome es)).length_eq
      have h2 := (drained_results_perm hinv hd).length_eq
      rw [List.length_map, List.length_range] at h2
      rw [h1, h2, plan_length]
    · intro hall res hres
      have hres' : res ∈ (runPool (plan t c) w outcome es).results :=
        (report_results_perm _ _).mem_iff.mp hres
      obtain ⟨j, r, hget, heq⟩ := hinv.2.2 res hres'
      rw [heq]
      simp [mkResult, hall r.chunkIndex, statusOf]

/-- Witness for C2 at totalUnits = 7, chunkSize = 3: three chunks, and the
last planned range [6, 7) has length 7 mod 3 = 1. -/
theorem planner_chunk_count_witness :
    1 ≤ 3 ∧ (plan 7 3).length = numChunks 7 3 ∧
    (plan 7 3).getLast? =
      some { chunkIndex := 2, startUnit := 6, endUnit := 7 } ∧
    ({ chunkIndex := 2, startUnit := 6, endUnit := 7 : UnitRange }.endUnit -
        { chunkIndex := 2, startUnit := 6, endUnit := 7 : UnitRange }.startUnit
      = if 7 % 3 = 0 then 3 else 7 % 3) :=
  ⟨by decide, (planner_chunk_count 7 3 (by decide)).1, by decide,
    (planner_chunk_count 7 3 (by decide)).2.2.2.1
      { chunkIndex := 2, startUnit := 6, endUnit := 7 } (by decide)⟩

/-- Counterexample to C3 as stated: at totalUnits = 0, chunkSize = 1 we have
chunkSize ≥ totalUnits, yet the plan is the empty sequence, not exactly one
chunk spanning the whole document. -/
theorem planner_single_chunk_counterexample :
    1 ≥ 0 ∧ plan 0 1 = [] ∧ (plan 0 1).length ≠ 1 := by
  refine ⟨by decide, ?_, by decide⟩
  decide

/-- Claim C3 as amended: for chunkSize ≥ 1, a zero-unit document yields the
empty plan, and the empty-schedule run over it drains immediately and is
reported as success with zero results; and when 1 ≤ totalUnits ≤ chunkSize
the plan is exactly one chunk spanning the whole document [0, totalUnits). -/
theorem planner_edge_cases (t c : Nat) (hc : 1 ≤ c) :
    (t = 0 → plan t c = [] ∧
      ∀ w outcome, drained (plan t c) (runPool (plan t c) w outcome []) ∧
        finalReport (plan t c).length (runPool (plan t c) w outcome []) =
          { totalChunksPlanned := 0, results := [], cancelled := false }) ∧
    (1 ≤ t → t ≤ c →
      plan t c = [{ chunkIndex := 0, startUnit := 0, endUnit := t }]) := by
  constructor
  · rintro rfl
    have hnc : numChunks 0 c = 0 := Nat.div_eq_of_lt (by omega)
    have hplan : plan 0 c = [] := by
      unfold plan
      rw [hnc]
      rfl
    refine ⟨hplan, fun w outcome => ?_⟩
    constructor
    · show drained (plan 0 c) initState
      rw [hplan]
      exact ⟨rfl, rfl⟩
    · show finalReport (plan 0 c).length initState = _
      rw [hplan]
      rfl
  · intro h1 h2
    have hnc : numChunks t c = 1 := by
      unfold numChunks
      apply Nat.div_eq_of_lt_le
      · omega
      · have h3 : (1 + 1) * c = c + c := by ring
        omega
    unfold plan
    rw [hnc]
    have hr1 : List.range 1 = [0] := rfl
    rw [hr1]
    simp only [List.map_cons, List.map_nil, Nat.zero_mul, Nat.zero_add, Nat.one_mul]
    have h4 : min c t = t := Nat.min_eq_right h2
    rw [h4]

/-- Witness for the amended C3: chunkSize = 3 gives the empty plan for a
0-unit document and the single chunk [0, 2) for a 2-unit document. -/
theorem planner_edge_cases_witness :
    1 ≤ 3 ∧ plan 0 3 = [] ∧
    plan 2 3 = [{ chunkIndex := 0, startUnit := 0, endUnit := 2 }] :=
  ⟨by decide, ((planner_edge_cases 0 3 (by decide)).1 rfl).1,
    (planner_edge_cases 2 3 (by decide)).2 (by decide) (by decide)⟩

/-- Claim C7: the Chunk Planner is deterministic — two engine runs with the
same totalUnits and chunkSize produce identical planned chunk boundaries,
independently of worker count, per-chunk outcomes and scheduling, and the
planner itself performs no I/O and reads no state beyond its two integer
arguments. -/
theorem planner_deterministic (t c w₁ w₂ : Nat)
    (o₁ o₂ : Nat → ChunkOutcome) (es₁ es₂ : List Event) :
    (engineRun t c w₁ o₁ es₁).plannedRanges =
      (engineRun t c w₂ o₂ es₂).plannedRanges := rfl

/-- Claim C4: under any schedule and any maxWorkers ≥ 1 that drains the
pool, the chunk indexes of the reported results are a permutation of the
planned positions — every planned range yields exactly one ChunkResult, no
duplicates, no omissions — and the final report is sorted by chunkIndex
ascending regardless of worker count or completion order. -/
theorem pool_exactly_once_sorted (t c w : Nat) (_hw : 1 ≤ w)
    (outcome : Nat → ChunkOutcome) (es : List Event)
    (hd : drained (plan t c) (runPool (plan t c) w outcome es)) :
    (((finalReport (plan t c).length (runPool (plan t c) w outcome es)).results.map
        fun res => res.chunkIndex).Perm (List.range (plan t c).length)) ∧
    List.Sorted byIndex
      (finalReport (plan t c).length (runPool (plan t c) w outcome es)).results := by
  have hg := plan_goodRanges t c
  have hinv := inv_runPool (plan t c) w outcome hg es
  refine ⟨?_, report_sorted _ _⟩
  have h1 := (report_results_perm (plan t c).length
    (runPool (plan t c) w outcome es)).map fun res => res.chunkIndex
  exact h1.trans (drained_results_perm hinv hd)

/-- Witness for C4: a 4-unit document with chunkSize 2, one worker, and a
schedule that claims and finishes both chunks in order. -/
theorem pool_exactly_once_sorted_witness :
    1 ≤ 1 ∧
    drained (plan 4 2) (runPool (plan 4 2) 1 allOk
      [Event.claim, Event.finish 0, Event.claim, Event.finish 1]) ∧
    ((((finalReport (plan 4 2).length (runPool (plan 4 2) 1 allOk
          [Event.claim, Event.finish 0, Event.claim, Event.finish 1])).results.map
        fun res => res.chunkIndex).Perm (List.range (plan 4 2).length)) ∧
      List.Sorted byIndex (finalReport (plan 4 2).length (runPool (plan 4 2) 1 allOk
        [Event.claim, Event.finish 0, Event.claim, Event.finish 1])).results) :=
  ⟨by decide, by decide,
    pool_exactly_once_sorted 4 2 1 (by decide) allOk
      [Event.claim, Event.finish 0, Event.claim, Event.finish 1] (by decide)⟩

lemma drained_report_result (t c w : Nat) (outcome : Nat → ChunkOutcome)
    (es : List Event)
    (hd : drained (plan t c) (runPool (plan t c) w outcome es))
    {j : Nat} (hj : j < (plan t c).length) :
    ∃ res ∈ (finalReport (plan t c).length (runPool (plan t c) w outcome es)).results,
      res.chunkIndex = j ∧ res.status = statusOf (outcome j) := by
  have hg := plan_goodRanges t c
  have hinv := inv_runPool (plan t c) w outcome hg es
  rw [plan_length] at hj
  have hget : (plan t c).get? j = some
      { chunkIndex := j, startUnit := j * c, endUnit := min ((j + 1) * c) t } := by
    rw [plan_get?, if_pos hj]
  obtain ⟨res, hres, heq⟩ := drained_result_for_index hinv hd hget hg
  refine ⟨res, (report_results_perm _ _).mem_iff.mpr hres, ?_, ?_⟩
  · rw [heq]
    rfl
  · rw [heq]
    rfl

/-- Claim C5: in a drained run in which chunk j0's extraction or write
fails, chunk j0's reported result has status Failed, while every planned
chunk still gets a result whose status is determined by its own outcome
alone (so siblings with ok outcome report Success), and the run still
accounts for every planned chunk — a single chunk failure aborts neither
sibling chunks nor the run. -/
theorem chunk_failure_isolated (t c w : Nat) (outcome : Nat → ChunkOutcome)
    (es : List Event) (j0 : Nat)
    (hd : drained (plan t c) (runPool (plan t c) w outcome es))
    (hj0 : j0 < (plan t c).length)
    (hfail : outcome j0 ≠ ChunkOutcome.ok) :
    (∃ res ∈ (finalReport (plan t c).length (runPool (plan t c) w outcome es)).results,
        res.chunkIndex = j0 ∧ ∃ reason, res.status = ChunkStatus.failed reason) ∧
    (∀ j, j < (plan t c).length →
        ∃ res ∈ (finalReport (plan t c).length
            (runPool (plan t c) w outcome es)).results,
          res.chunkIndex = j ∧ res.status = statusOf (outcome j)) ∧
    (finalReport (plan t c).length
        (runPool (plan t c) w outcome es)).results.length = (plan t c).length := by
  refine ⟨?_, ?_, ?_⟩
  · obtain ⟨res, hmem, hidx, hst⟩ := drained_report_result t c w outcome es hd hj0
    refine ⟨res, hmem, hidx, ?_⟩
    cases hoc : outcome j0 with
    | ok => exact absurd hoc hfail
    | rangeUnreadable =>
      rw [hoc] at hst
      exact ⟨("RangeUnreadable"), hst⟩
    | writeError =>
      rw [hoc] at hst
      exact ⟨("ChunkWriteError"), hst⟩
  · intro j hj
    exact drained_report_result t c w outcome es hd hj
  · have hg := plan_goodRanges t c
    have hinv := inv_runPool (plan t c) w outcome hg es
    have h1 := (report_results_perm (plan t c).length
      (runPool (plan t c) w outcome es)).length_eq
    have h2 := (drained_results_perm hinv hd).length_eq
    rw [List.length_map, List.length_range] at h2
    omega

/-- Witness for C5: a 6-unit document in chunks of 2 (three chunks), two
workers, chunk 1 failing extraction, under a schedule with out-of-order
completion that drains the pool. -/
theorem chunk_failure_isolated_witness :
    drained (plan 6 2) (runPool (plan 6 2) 2 failAt1
      [Event.claim, Event.claim, Event.finish 1, Event.finish 0,
        Event.claim, Event.finish 2]) ∧
    1 < (plan 6 2).length ∧ failAt1 1 ≠ ChunkOutcome.ok ∧
    (∃ res ∈ (finalReport (plan 6 2).length (runPool (plan 6 2) 2 failAt1
        [Event.claim, Event.claim, Event.finish 1, Event.finish 0,
          Event.claim, Event.finish 2])).results,
      res.chunkIndex = 1 ∧ ∃ reason, res.status = ChunkStatus.failed reason) :=
  ⟨by decide, by decide, by decide,
    (chunk_failure_isolated 6 2 2 failAt1
      [Event.claim, Event.claim, Event.finish 1, Event.finish 0,
        Event.claim, Event.finish 2] 1 (by decide) (by decide) (by decide)).1⟩

/-- Claim C6: in any run whose schedule requests cancellation, the final
report has cancelled = true; it holds at most as many results as planned
chunks; every recorded result is the faithful result of a planned range
whose extraction ran to completion; and once the token is set a claim step
is a no-op — no new chunk is ever started after the token is observed. -/
theorem cancellation_cooperative (t c w : Nat) (outcome : Nat → ChunkOutcome)
    (es : List Event) (hcancel : Event.cancel ∈ es) :
    (finalReport (plan t c).length
        (runPool (plan t c) w outcome es)).cancelled = true ∧
    (finalReport (plan t c).length
        (runPool (plan t c) w outcome es)).results.length ≤ (plan t c).length ∧
    (∀ res ∈ (finalReport (plan t c).length
        (runPool (plan t c) w outcome es)).results,
      ∃ j r, (plan t c).get? j = some r ∧ res = mkResult r (outcome r.chunkIndex)) ∧
    (∀ s : EngineState, s.cancelled = true →
        step (plan t c) w outcome s Event.claim = s) := by
  have hg := plan_goodRanges t c
  have hinv := inv_runPool (plan t c) w outcome hg es
  refine ⟨?_, ?_, ?_, ?_⟩
  · exact foldl_cancelled (plan t c) w outcome es initState hcancel
  · have h1 := (report_results_perm (plan t c).length
      (runPool (plan t c) w outcome es)).length_eq
    obtain ⟨hcur, hperm, -⟩ := hinv
    have h2 := hperm.length_eq
    rw [List.length_append, List.length_map, List.length_range] at h2
    omega
  · intro res hres
    exact hinv.2.2 res ((report_results_perm _ _).mem_iff.mp hres)
  · intro s hs
    show (if s.cancelled = true then s else _) = s
    rw [if_pos hs]

/-- Witness for C6: cancellation requested after the first of two chunks
completed; the report is cancelled with the single completed result. -/
theorem cancellation_cooperative_witness :
    Event.cancel ∈ [Event.claim, Event.finish 0, Event.cancel, Event.claim] ∧
    (finalReport (plan 4 2).length (runPool (plan 4 2) 1 allOk
        [Event.claim, Event.finish 0, Event.cancel, Event.claim])).cancelled = true ∧
    (finalReport (plan 4 2).length (runPool (plan 4 2) 1 allOk
        [Event.claim, Event.finish 0, Event.cancel, Event.claim])).results.length
      ≤ (plan 4 2).length :=
  ⟨by decide,
    (cancellation_cooperative 4 2 1 allOk
      [Event.claim, Event.finish 0, Event.cancel, Event.claim] (by decide)).1,
    (cancellation_cooperative 4 2 1 allOk
      [Event.claim, Event.finish 0, Event.cancel, Event.claim] (by decide)).2.1⟩

end Chunker

namespace Screenshot

/-- Claim C8: getDomain is a total function of its input — it never throws —
returning the parsed hostname whenever the URL parses with a non-empty
hostname, and the literal 'unknown-domain' when parsing throws or the
hostname is empty. -/
theorem getDomain_total (parse : String → Option String) (url : String) :
    (∀ h, parse url = some h → h ≠ ("") → getDomain parse url = h) ∧
    (parse url = none → getDomain parse url = ("unknown-domain")) ∧
    (parse url = some ("") → getDomain parse url = ("unknown-domain")) := by
  refine ⟨?_, ?_, ?_⟩
  · intro h h1 h2
    rw [getDomain, h1]
    exact if_neg h2
  · intro h1
    rw [getDomain, h1]
  · intro h1
    rw [getDomain, h1]
    exact if_pos rfl

/-- Witness for C8: a parser returning hostname github.com, a throwing
parser, and a parser returning the empty hostname. -/
theorem getDomain_total_witness :
    getDomain (fun _ => some ("github.com")) ("https://github.com") = ("github.com") ∧
    getDomain (fun _ => none) ("::bad::") = ("unknown-domain") ∧
    getDomain (fun _ => some ("")) ("file:///tmp") = ("unknown-domain") :=
  ⟨(getDomain_total (fun _ => some ("github.com")) ("https://github.com")).1
      ("github.com") rfl (by decide),
    (getDomain_total (fun _ => none) ("::bad::")).2.1 rfl,
    (getDomain_total (fun _ => some ("")) ("file:///tmp")).2.2 rfl⟩

/-- Claim C9: isRestrictedUrl holds exactly when the URL starts with one of
the seven restricted prefixes, and for a restricted active tab
captureScreenshot throws 'Cannot capture restricted page' without ever
invoking chrome.tabs.captureVisibleTab or passing any filename to
chrome.downloads.download. -/
theorem restricted_url_guard (env : Env) (tab : Tab) (rest : List Tab)
    (url : String) :
    (isRestrictedUrl url = true ↔
      (jsStartsWith url ("chrome://") = true ∨
       jsStartsWith url ("chrome-extension://") = true ∨
       jsStartsWith url ("chrome-search://") = true ∨
       jsStartsWith url ("edge://") = true ∨
       jsStartsWith url ("about:") = true ∨
       jsStartsWith url ("view-source:") = true ∨
       jsStartsWith url ("file://") = true)) ∧
    (env.tabs = tab :: rest → isRestrictedUrl tab.url = true →
      (captureScreenshot env).result = Except.error ("Cannot capture restricted page") ∧
      (captureScreenshot env).captureCalled = false ∧
      (captureScreenshot env).downloadFilename = none) := by
  constructor
  · simp [isRestrictedUrl, RESTRICTED_URLS, List.any_cons, List.any_nil,
      Bool.or_eq_true]
  · intro h1 h2
    have hcap : captureScreenshot env =
        { result := Except.error ("Cannot capture restricted page")
          captureCalled := false, downloadFilename := none
          notifications := [("Cannot capture restricted page")] } := by
      unfold captureScreenshot
      rw [h1]
      simp [h2]
    rw [hcap]
    exact ⟨rfl, rfl, rfl⟩

/-- Witness for C9: a chrome:// tab is blocked without capture or save. -/
theorem restricted_url_guard_witness :
    restrictedEnv.tabs = { id := 1, url := ("chrome://settings") } :: [] ∧
    isRestrictedUrl ("chrome://settings") = true ∧
    ((captureScreenshot restrictedEnv).result =
        Except.error ("Cannot capture restricted page") ∧
      (captureScreenshot restrictedEnv).captureCalled = false ∧
      (captureScreenshot restrictedEnv).downloadFilename = none) :=
  ⟨rfl, by decide,
    (restricted_url_guard restrictedEnv { id := 1, url := ("chrome://settings") }
      [] ("")).2 rfl (by decide)⟩

lemma getTimestamp_mem {iso : String} {ch : Char}
    (hch : ch ∈ (getTimestamp iso).data) :
    ch ≠ '.' ∧ ∃ c0 ∈ iso.data, (if c0 = ':' ∨ c0 = 'T' then '-' else c0) = ch := by
  have hdot : ch ≠ '.' := by
    have := List.mem_takeWhile_imp hch
    simpa using this
  refine ⟨hdot, ?_⟩
  have hmap : ch ∈ iso.data.map fun c0 => if c0 = ':' ∨ c0 = 'T' then '-' else c0 :=
    List.takeWhile_subset _ hch
  exact List.mem_map.mp hmap

/-- Claim C10: the timestamp built from any clock reading contains no ':',
'T' or '.' character (each ':' and 'T' is replaced by '-', and everything
from the first '.' is dropped), so the screenshot filename
screenshots/domain/timestamp.png contains exactly two '/' separators — a
fixed three-level path — whenever the domain and the raw ISO string are
themselves slash-free. -/
theorem getTimestamp_clean (iso domain : String) :
    (∀ ch ∈ (getTimestamp iso).data, ch ≠ ':' ∧ ch ≠ 'T' ∧ ch ≠ '.') ∧
    ('/' ∉ iso.data → '/' ∉ domain.data →
      (screenshotFilename domain (getTimestamp iso)).data.count '/' = 2) := by
  constructor
  · intro ch hch
    obtain ⟨hdot, c0, hc0, hf⟩ := getTimestamp_mem hch
    by_cases hcase : c0 = ':' ∨ c0 = 'T'
    · rw [if_pos hcase] at hf
      subst hf
      exact ⟨by decide, by decide, by decide⟩
    · rw [if_neg hcase] at hf
      subst hf
      push_neg at hcase
      exact ⟨hcase.1, hcase.2, hdot⟩
  · intro hiso hdom
    have hts : '/' ∉ (getTimestamp iso).data := by
      intro hmem
      obtain ⟨-, c0, hc0, hf⟩ := getTimestamp_mem hmem
      by_cases hcase : c0 = ':' ∨ c0 = 'T'
      · rw [if_pos hcase] at hf
        exact absurd hf (by decide)
      · rw [if_neg hcase] at hf
        subst hf
        exact hiso hc0
    show ((("screenshots/") ++ domain ++ ("/") ++ getTimestamp iso ++
      (".png")).data.count '/') = 2
    rw [String.data_append, String.data_append, String.data_append,
      String.data_append, List.count_append, List.count_append,
      List.count_append, List.count_append]
    rw [List.count_eq_zero.mpr hdom, List.count_eq_zero.mpr hts]
    decide

/-- Witness for C10: the README's example clock reading and domain give the
three-level path screenshots/github.com/2023-04-15-10-30-45.png. -/
theorem getTimestamp_clean_witness :
    '/' ∉ ("2023-04-15T10:30:45.123Z" : String).data ∧
    '/' ∉ ("github.com" : String).data ∧
    (screenshotFilename ("github.com")
      (getTimestamp ("2023-04-15T10:30:45.123Z"))).data.count '/' = 2 :=
  ⟨by decide, by decide,
    (getTimestamp_clean ("2023-04-15T10:30:45.123Z") ("github.com")).2
      (by decide) (by decide)⟩

/-- The README's example timestamp, computed by the embedded getTimestamp. -/
lemma getTimestamp_sample :
    getTimestamp ("2023-04-15T10:30:45.123Z") = ("2023-04-15-10-30-45") := by
  decide

end Screenshot
